import Mathlib

/-!
Verification of the `chat_message_filter` repository (Rust).

This file gives a shallow embedding of the two core source files,
`src/config.rs` (the `Config` pattern-matching structure) and
`src/main.rs` (the `filter_chat_log` segmentation/filtering function),
and proves theorems checking the specification's claims against the code.

Modelling choices:
* Rust strings (`String` / `&str`) are modelled as `List Char`.
* A compiled regular expression (`regex::Regex`) is modelled by its
  matching function `List Char → Bool` (its `is_match` method); regex
  compilation (`Regex::new`) is an external dependency and is passed in
  as a function that may fail.
* Rust `str::to_lowercase` is modelled as per-character lowercasing with
  `Char.toLower`, which agrees with Rust on ASCII text.
* `usize` arithmetic is `Nat` with an explicit wrap at `2 ^ 64` where the
  source can underflow (`parts.len() - 1`).
* Fallible Rust functions returning `anyhow::Result` are modelled with
  `Except Err`.
-/

deriving instance DecidableEq for Except

namespace ChatFilter

/-- Strings are modelled as lists of characters. -/
abbrev Str := List Char

/-- Model of Rust `str::to_lowercase` (per-character ASCII lowercasing). -/
def toLowercase (s : Str) : Str := s.map Char.toLower

/-- Model of Rust `str::contains(pattern)`: `containsSubstr haystack pat`
is true iff `pat` occurs as a contiguous substring of `haystack`
(the empty pattern is contained in every string). -/
def containsSubstr (haystack pat : Str) : Bool :=
  match haystack with
  | [] => pat.isEmpty
  | _ :: rest => pat.isPrefixOf haystack || containsSubstr rest pat

/-- The error values the modelled program can produce.
`noPatterns` stands for the `anyhow` message
"no exclude/include patterns were provided" (src/config.rs);
`regexCompile isInclude pat` stands for
"failed to compile include/exclude regex from {pat}: {err}" (src/config.rs);
`structural n` stands for
"Expected 1 \x7b marker \x7d, but found \x7bn\x7d" (src/main.rs), whose payload
is the occurrence count the error message cites. -/
inductive Err where
  | noPatterns : Err
  | regexCompile : Bool → Str → Err
  | structural : Nat → Err
deriving DecidableEq

/-- Model of `struct Config` from src/config.rs. The two `#[serde(skip)]`
fields `include_regex` / `exclude_regex` hold the compiled regexes,
modelled by their matching functions. The Rust field `include` is a Lean
keyword, hence the name `include_`. -/
structure Config where
  regex : Bool
  include_ : Option Str
  exclude : Option Str
  match_case : Bool
  include_regex : Option (Str → Bool)
  exclude_regex : Option (Str → Bool)

/-- Model of `Config::compile_regexes` (src/config.rs): compile the include
pattern if present, then the exclude pattern if present; a compilation
failure surfaces an error naming the offending pattern. `compile` stands
for `Regex::new`, returning `none` on a regex-syntax error. -/
def Config.compile_regexes (compile : Str → Option (Str → Bool)) (c : Config) :
    Except Err Config :=
  match c.include_ with
  | some pat =>
    match compile pat with
    | none => .error (.regexCompile true pat)
    | some r =>
      match c.exclude with
      | some pat2 =>
        match compile pat2 with
        | none => .error (.regexCompile false pat2)
        | some r2 => .ok { c with include_regex := some r, exclude_regex := some r2 }
      | none => .ok { c with include_regex := some r }
  | none =>
    match c.exclude with
    | some pat2 =>
      match compile pat2 with
      | none => .error (.regexCompile false pat2)
      | some r2 => .ok { c with exclude_regex := some r2 }
    | none => .ok c

/-- Model of `Config::from_args` (src/config.rs): store the fields; if
`match_case` is false, lowercase both pattern strings; if `regex` is true,
compile both patterns. -/
def Config.from_args (compile : Str → Option (Str → Bool)) (regex : Bool)
    (include_ exclude : Option Str) (match_case : Bool) : Except Err Config :=
  let c : Config :=
    { regex := regex, include_ := include_, exclude := exclude,
      match_case := match_case, include_regex := none, exclude_regex := none }
  let c :=
    if match_case then c
    else { c with include_ := c.include_.map toLowercase,
                  exclude := c.exclude.map toLowercase }
  if regex then c.compile_regexes compile else .ok c

/-- Model of `Config::load` (src/config.rs) after the external file read and
TOML deserialization have produced the four serialized fields (the
`#[serde(skip)]` regex fields deserialize to `None`): the patterns are
stored exactly as deserialized — no case normalization — and only the
conditional regex compilation step is performed. -/
def Config.load (compile : Str → Option (Str → Bool)) (regex : Bool)
    (include_ exclude : Option Str) (match_case : Bool) : Except Err Config :=
  let c : Config :=
    { regex := regex, include_ := include_, exclude := exclude,
      match_case := match_case, include_regex := none, exclude_regex := none }
  if regex then c.compile_regexes compile else .ok c

/-- Model of `Config::matches` (src/config.rs): normalize the haystack,
fail if neither pattern is configured, then test the include pattern
(compiled regex if present, else literal containment) and the exclude
pattern the same way. -/
def Config.matches (c : Config) (haystack : Str) : Except Err Bool :=
  let h := if c.match_case then haystack else toLowercase haystack
  if c.exclude.isNone && c.include_.isNone then
    .error .noPatterns
  else
    let includePass : Bool :=
      match c.include_regex with
      | some r => r h
      | none =>
        match c.include_ with
        | some pat => containsSubstr h pat
        | none => true
    if !includePass then .ok false
    else
      let excludeHit : Bool :=
        match c.exclude_regex with
        | some r => r h
        | none =>
          match c.exclude with
          | some pat => containsSubstr h pat
          | none => false
      if excludeHit then .ok false else .ok true

/-- Prepend a character to the first part of a split result (used by the
non-matching step of `splitInclusive`). -/
def consHead (c : Char) : List Str → List Str
  | [] => [[c]]
  | p :: ps => (c :: p) :: ps

/-- Fuel-driven worker for `splitInclusive`; the fuel is an upper bound on
the string length, so the `0, _ :: _` case is never reached from
`splitInclusive`. -/
def splitInclusiveAux (sep : Str) : Nat → Str → List Str
  | _, [] => []
  | 0, s => [s]
  | fuel + 1, c :: rest =>
    if !sep.isEmpty && sep.isPrefixOf (c :: rest) then
      sep :: splitInclusiveAux sep fuel ((c :: rest).drop sep.length)
    else
      consHead c (splitInclusiveAux sep fuel rest)

/-- Model of Rust `str::split_inclusive(sep)` collected into a list:
split on the non-overlapping leftmost occurrences of `sep`, keeping each
occurrence attached to the end of its part; the empty string yields no
parts, and no trailing empty part is produced when the string ends with
`sep`. (Rust's empty-pattern behaviour is not modelled; every separator
the program uses is a fixed non-empty marker.) -/
def splitInclusive (sep s : Str) : List Str :=
  splitInclusiveAux sep s.length s

/-- Fuel-driven worker for `replaceStr`. -/
def replaceAux (pat repl : Str) : Nat → Str → Str
  | _, [] => []
  | 0, s => s
  | fuel + 1, c :: rest =>
    if !pat.isEmpty && pat.isPrefixOf (c :: rest) then
      repl ++ replaceAux pat repl fuel ((c :: rest).drop pat.length)
    else
      c :: replaceAux pat repl fuel rest

/-- Model of Rust `str::replace(pat, repl)`: replace the non-overlapping
leftmost occurrences of `pat` by `repl`. (Rust's empty-pattern behaviour
is not modelled; the program only replaces the fixed non-empty trailer.) -/
def replaceStr (s pat repl : Str) : Str :=
  replaceAux pat repl s.length s

/-- Fuel-driven worker for `countOcc`. -/
def countOccAux (sep : Str) : Nat → Str → Nat
  | _, [] => 0
  | 0, _ => 0
  | fuel + 1, c :: rest =>
    if !sep.isEmpty && sep.isPrefixOf (c :: rest) then
      countOccAux sep fuel ((c :: rest).drop sep.length) + 1
    else
      countOccAux sep fuel rest

/-- The number of non-overlapping leftmost occurrences of `sep` in `s` —
the occurrences found by `splitInclusive` and `replaceStr`. -/
def countOcc (sep s : Str) : Nat :=
  countOccAux sep s.length s

/-- The chat-container opening marker from src/main.rs. -/
def chatMarker : Str := "<div class=\"Chat\">".data

/-- The message opening marker from src/main.rs. -/
def msgMarker : Str := "<div class=\"ChatMessage\"".data

/-- The fixed document trailer from src/main.rs. -/
def trailer : Str := "</div>\n</body>\n</html>".data

/-- The number of values of `usize` (64-bit target). -/
def usizeSize : Nat := 2 ^ 64

/-- Wrapping `usize` subtraction of 1, as in `parts.len() - 1`
(src/main.rs). With overflow checks enabled the `n = 0` case panics in
Rust; without them it wraps to `2 ^ 64 - 1`, which is the value modelled
here. -/
def usizeSub1 (n : Nat) : Nat := (n + (usizeSize - 1)) % usizeSize

/-- The fragment loop of `filter_chat_log` (src/main.rs): test each
fragment with `Config::matches`, keep it verbatim when the test returns
true, drop it when false, and propagate the first error. -/
def filterFragments (cfg : Config) : List Str → Except Err Str
  | [] => .ok []
  | f :: fs =>
    match cfg.matches f with
    | .error e => .error e
    | .ok m =>
      match filterFragments cfg fs with
      | .error e => .error e
      | .ok rest => .ok (if m then f ++ rest else rest)

/-- Whether a fragment survives filtering: `Config::matches` returns
`Ok(true)` on it. -/
def survives (cfg : Config) (f : Str) : Bool :=
  match cfg.matches f with
  | .ok b => b
  | .error _ => false

/-- Model of `filter_chat_log` (src/main.rs): split on the chat-container
marker keeping it attached to the left part; unless exactly two parts
result, fail with a structural error citing `parts.len() - 1` (in `usize`
arithmetic); otherwise emit the first part verbatim, remove every
occurrence of the trailer from the second part, split the remainder on
the message marker, filter the fragments, and append the trailer. -/
def filter_chat_log (chat_log : Str) (cfg : Config) : Except Err Str :=
  match splitInclusive chatMarker chat_log with
  | [pre, rest] =>
    let chat_messages := replaceStr rest trailer []
    (filterFragments cfg (splitInclusive msgMarker chat_messages)).map
      (fun body => pre ++ body ++ trailer)
  | parts => .error (.structural (usizeSub1 parts.length))

/-- The verdict of `Config::matches` as the specification words it: the
case-normalized fragment must satisfy the include pattern when one is
present (regex search-match or substring containment, depending on mode)
AND must not satisfy the exclude pattern when one is present. This
definition follows the spec text and is compared against
`Config.matches`, which follows the source. -/
def matchesSpec (c : Config) (frag : Str) : Bool :=
  let h := if c.match_case then frag else toLowercase frag
  (match c.include_regex, c.include_ with
   | some r, _ => r h
   | none, some pat => containsSubstr h pat
   | none, none => true)
  &&
  !(match c.exclude_regex, c.exclude with
    | some r, _ => r h
    | none, some pat => containsSubstr h pat
    | none, none => false)

/-! ### Concrete configurations and documents used by the claims -/

/-- Regex provider for configs built with `regex = false`: never invoked. -/
def noRegex : Str → Option (Str → Bool) := fun _ => none

/-- The identity config of the spec's idempotence property: literal
include pattern `""`, no exclude (parametrized by `match_case`). -/
def cfgIdm (mc : Bool) : Config :=
  ⟨false, some [], none, mc, none, none⟩

/-- The identity config with `match_case = false`. -/
def cfgId : Config := cfgIdm false

/-- Literal include `"A"` and exclude `"A"`, case-sensitive. -/
def cfgAA : Config := ⟨false, some ['A'], some ['A'], true, none, none⟩

/-- A config with neither include nor exclude set. -/
def cfgEmpty : Config := ⟨false, none, none, false, none, none⟩

/-- Literal include `"Foo"` lowercased at construction
(`Config::from_args` with `match_case = false`). -/
def cfgFoo : Config := ⟨false, some "foo".data, none, false, none, none⟩

/-- Literal include `"Foo"` with `match_case = true`. -/
def cfgFooCS : Config := ⟨false, some "Foo".data, none, true, none, none⟩

/-- Literal include `"Foo"` with `match_case = false` as produced by
`Config::load`, which applies no case normalization. -/
def cfgFileFoo : Config := ⟨false, some "Foo".data, none, false, none, none⟩

/-- The literal part of the anchored OOC include regex. -/
def oocLit : Str := "<div class=\"ChatMessage\" data-type=\"ooc\">".data

/-- The OOC include regex pattern `^<div class=\"ChatMessage\" data-type=\"ooc\">`. -/
def oocPattern : Str := '^' :: oocLit

/-- The matching function of the compiled OOC regex: the pattern is a
caret anchor followed by a literal with no other regex metacharacters, so
`is_match` holds exactly when the literal is a prefix of the haystack. -/
def oocRegexFn : Str → Bool := fun h => oocLit.isPrefixOf h

/-- A regex provider (`Regex::new`) that compiles the OOC pattern. -/
def oocCompile : Str → Option (Str → Bool) :=
  fun p => if p = oocPattern then some oocRegexFn else none

/-- The config of the spec's regex-mode OOC scenario: regex mode, include
pattern `oocPattern`, no exclude, case-sensitive. -/
def cfgOOC : Config := ⟨true, some oocPattern, none, true, some oocRegexFn, none⟩

/-- Document head before the chat container marker. -/
def preHtml : Str := "<html>\n<body>\n".data

/-- An in-character message fragment. -/
def frag1 : Str := "<div class=\"ChatMessage\" data-type=\"ic\">hi</div>\n".data

/-- The out-of-character message fragment. -/
def fragOOC : Str := "<div class=\"ChatMessage\" data-type=\"ooc\">lol</div>\n".data

/-- Another in-character message fragment. -/
def frag3 : Str := "<div class=\"ChatMessage\" data-type=\"ic\">bye</div>\n".data

/-- The three-message document of the spec's OOC scenario: one OOC
message between two in-character messages. -/
def docOOC : Str :=
  preHtml ++ chatMarker ++ ('\n' :: (frag1 ++ fragOOC ++ frag3)) ++ trailer

/-- A document whose message body contains the trailer string in its
interior, in addition to the closing trailer. -/
def doc5 : Str :=
  "<html>".data ++ chatMarker ++ msgMarker ++ "x".data ++ trailer ++ "y".data ++ trailer

/-! ### Basic lemmas about the string primitives -/

/-- `containsSubstr` decides the substring (infix) relation. -/
theorem containsSubstr_iff (h p : Str) : containsSubstr h p = true ↔ p <:+: h := by
  induction h with
  | nil =>
    simp only [containsSubstr, List.isEmpty_iff]
    constructor
    · rintro rfl; exact List.infix_rfl
    · intro hp; exact List.infix_nil.mp hp
  | cons c rest ih =>
    simp only [containsSubstr, Bool.or_eq_true, List.isPrefixOf_iff_prefix, ih]
    constructor
    · rintro (hpre | hinf)
      · exact hpre.isInfix
      · exact List.infix_cons hinf
    · rintro ⟨s, t, hst⟩
      cases s with
      | nil => exact Or.inl ⟨t, by simpa using hst⟩
      | cons d s' =>
        refine Or.inr ⟨s', t, ?_⟩
        have := hst
        simp only [List.cons_append] at this
        exact (List.cons.injEq _ _ _ _ ▸ this).2

/-- The result of `splitInclusiveAux` does not depend on the fuel, as long
as the fuel bounds the string length. -/
theorem splitInclusiveAux_fuel (sep : Str) :
    ∀ f1 f2 s, s.length ≤ f1 → s.length ≤ f2 →
      splitInclusiveAux sep f1 s = splitInclusiveAux sep f2 s := by
  intro f1
  induction f1 with
  | zero =>
    intro f2 s h1 _
    have : s = [] := List.length_eq_zero.mp (Nat.le_zero.mp h1)
    subst this
    cases f2 <;> rfl
  | succ f ih =>
    intro f2 s h1 h2
    cases s with
    | nil => cases f2 <;> rfl
    | cons c rest =>
      cases f2 with
      | zero => simp at h2
      | succ g =>
      simp only [splitInclusiveAux]
      by_cases hc : (!sep.isEmpty && sep.isPrefixOf (c :: rest)) = true
      · rw [if_pos hc, if_pos hc]
        have hlen : ((c :: rest).drop sep.length).length ≤ f := by
          have hsep : 0 < sep.length := by
            rcases Bool.and_eq_true_iff.mp hc with ⟨hne, _⟩
            cases sep with
            | nil => simp [List.isEmpty] at hne
            | cons _ _ => simp
          simp only [List.length_drop, List.length_cons] at *
          omega
        have hlen2 : ((c :: rest).drop sep.length).length ≤ g := by
          have hsep : 0 < sep.length := by
            rcases Bool.and_eq_true_iff.mp hc with ⟨hne, _⟩
            cases sep with
            | nil => simp [List.isEmpty] at hne
            | cons _ _ => simp
          simp only [List.length_drop, List.length_cons] at *
          omega
        rw [ih _ _ hlen hlen2]
      · rw [if_neg hc, if_neg hc]
        have hr1 : rest.length ≤ f := by simp at h1; omega
        have hr2 : rest.length ≤ g := by simp at h2; omega
        rw [ih _ _ hr1 hr2]

/-- `splitInclusive` on the empty string yields no parts. -/
theorem splitInclusive_nil (sep : Str) : splitInclusive sep [] = [] := rfl

/-- One step of `splitInclusive`: either the separator is a prefix and one
part is cut off, or the head character is prepended to the first part of
the split of the tail. -/
theorem splitInclusive_cons (sep : Str) (c : Char) (rest : Str) :
    splitInclusive sep (c :: rest) =
      if !sep.isEmpty && sep.isPrefixOf (c :: rest) then
        sep :: splitInclusive sep ((c :: rest).drop sep.length)
      else
        consHead c (splitInclusive sep rest) := by
  show splitInclusiveAux sep (rest.length + 1) (c :: rest) = _
  simp only [splitInclusiveAux]
  by_cases hc : (!sep.isEmpty && sep.isPrefixOf (c :: rest)) = true
  · rw [if_pos hc, if_pos hc]
    refine congrArg _ (splitInclusiveAux_fuel sep _ _ _ ?_ (Nat.le_refl _))
    have hsep : 0 < sep.length := by
      rcases Bool.and_eq_true_iff.mp hc with ⟨hne, _⟩
      cases sep with
      | nil => simp [List.isEmpty] at hne
      | cons _ _ => simp
    simp only [List.length_drop, List.length_cons]
    omega
  · rw [if_neg hc, if_neg hc]
    rfl

/-- Prepending a character commutes with flattening a split result. -/
theorem flatten_consHead (c : Char) (l : List Str) :
    (consHead c l).flatten = c :: l.flatten := by
  cases l <;> simp [consHead]

/-- `consHead` never returns the empty list. -/
theorem consHead_ne_nil (c : Char) (l : List Str) : consHead c l ≠ [] := by
  cases l <;> simp [consHead]

/-- The parts produced by `splitInclusive` concatenate back to the original
string: inclusive splitting loses no bytes. -/
theorem splitInclusive_flatten (sep s : Str) :
    (splitInclusive sep s).flatten = s := by
  suffices h : ∀ fuel s, s.length ≤ fuel → (splitInclusiveAux sep fuel s).flatten = s from
    h s.length s (Nat.le_refl _)
  intro fuel
  induction fuel with
  | zero =>
    intro s hs
    have : s = [] := List.length_eq_zero.mp (Nat.le_zero.mp hs)
    subst this; rfl
  | succ f ih =>
    intro s hs
    match s with
    | [] => rfl
    | c :: rest =>
      simp only [splitInclusiveAux]
      by_cases hc : (!sep.isEmpty && sep.isPrefixOf (c :: rest)) = true
      · rw [if_pos hc]
        rcases Bool.and_eq_true_iff.mp hc with ⟨hne, hpre⟩
        obtain ⟨t, ht⟩ := List.isPrefixOf_iff_prefix.mp hpre
        have hsep : 0 < sep.length := by
          cases sep with
          | nil => simp [List.isEmpty] at hne
          | cons _ _ => simp
        have hdrop : (c :: rest).drop sep.length = t := by
          rw [← ht, List.drop_left]
        have hlen : ((c :: rest).drop sep.length).length ≤ f := by
          simp only [List.length_drop, List.length_cons] at *
          omega
        rw [List.flatten_cons, ih _ hlen, hdrop, ht]
      · rw [if_neg hc, flatten_consHead]
        have hr : rest.length ≤ f := by simp at hs; omega
        rw [ih _ hr]

/-- `splitInclusive` yields no parts exactly on the empty string. -/
theorem splitInclusive_eq_nil_iff (sep s : Str) :
    splitInclusive sep s = [] ↔ s = [] := by
  constructor
  · intro h
    have := splitInclusive_flatten sep s
    rw [h] at this
    exact this.symm
  · rintro rfl; rfl

/-- A prefix is an infix (wrapper with explicit witnesses). -/
theorem infixOfPre {l₁ l₂ : Str} (h : l₁ <+: l₂) : l₁ <:+: l₂ := by
  obtain ⟨t, ht⟩ := h
  exact ⟨[], t, by simpa using ht⟩

/-- A suffix of a list is a suffix of the list with one more leading element. -/
theorem sufCons {s l : Str} {c : Char} (h : s <:+ l) : s <:+ c :: l := by
  obtain ⟨u, hu⟩ := h
  exact ⟨c :: u, by rw [List.cons_append, hu]⟩

/-- If a string contains no occurrence of the (implicitly non-empty)
separator, `splitInclusive` returns it as the single part. -/
theorem splitInclusive_no_occurrence (sep s : Str) (hs : s ≠ []) (h : ¬ sep <:+: s) :
    splitInclusive sep s = [s] := by
  induction s with
  | nil => exact absurd rfl hs
  | cons c rest ih =>
    have hpre : ¬ (!sep.isEmpty && sep.isPrefixOf (c :: rest)) = true := by
      intro hc
      rcases Bool.and_eq_true_iff.mp hc with ⟨_, hp⟩
      exact h (infixOfPre (List.isPrefixOf_iff_prefix.mp hp))
    rw [splitInclusive_cons, if_neg hpre]
    by_cases hrest : rest = []
    · subst hrest; rfl
    · have hrest2 : ¬ sep <:+: rest := fun hinf => h (List.infix_cons hinf)
      rw [ih hrest hrest2]
      rfl

/-- Splitting a string whose first separator occurrence sits right after
`a` cuts off `a ++ sep` as the first part. The hypothesis says no
occurrence of `sep` starts strictly before the end of `a`. -/
theorem splitInclusive_first (sep a b : Str) (hsep : sep ≠ [])
    (hfirst : ¬ sep <:+: (a ++ sep).dropLast) :
    splitInclusive sep (a ++ sep ++ b) = (a ++ sep) :: splitInclusive sep b := by
  induction a with
  | nil =>
    simp only [List.nil_append]
    obtain ⟨c, s', rfl⟩ := List.exists_cons_of_ne_nil hsep
    rw [List.cons_append, splitInclusive_cons, if_pos ?pos]
    case pos =>
      simp only [Bool.and_eq_true, Bool.not_eq_true', List.isEmpty_iff,
        List.isPrefixOf_iff_prefix]
      exact ⟨by simp, by rw [← List.cons_append]; exact List.prefix_append _ _⟩
    rw [← List.cons_append, List.drop_left]
  | cons c a' ih =>
    have hne : a' ++ sep ≠ [] := List.append_ne_nil_of_right_ne_nil a' hsep
    have hdl : ((c :: a') ++ sep).dropLast = c :: (a' ++ sep).dropLast := by
      rw [List.cons_append, List.dropLast_cons_of_ne_nil hne]
    have hcond : ¬ (!sep.isEmpty && sep.isPrefixOf (c :: (a' ++ sep ++ b))) = true := by
      intro hc
      rcases Bool.and_eq_true_iff.mp hc with ⟨_, hp⟩
      have hp2 : sep <+: (c :: a') ++ sep ++ b := by
        have h0 := List.isPrefixOf_iff_prefix.mp hp
        rw [List.cons_append, List.cons_append]
        exact h0
      have hq : ((c :: a') ++ sep).dropLast <+: (c :: a') ++ sep ++ b :=
        (List.dropLast_prefix _).trans (List.prefix_append _ _)
      have hlen : sep.length ≤ ((c :: a') ++ sep).dropLast.length := by
        rw [List.length_dropLast, List.length_append, List.length_cons]
        omega
      exact hfirst (infixOfPre (List.prefix_of_prefix_length_le hp2 hq hlen))
    have hfirst' : ¬ sep <:+: (a' ++ sep).dropLast := by
      intro hinf
      exact hfirst (hdl ▸ List.infix_cons hinf)
    rw [List.cons_append, List.cons_append, splitInclusive_cons, if_neg hcond,
      ih hfirst']
    rfl

/-- `countOcc` is bounded by the string length. -/
theorem countOccAux_le_length (sep : Str) :
    ∀ fuel s, countOccAux sep fuel s ≤ s.length := by
  intro fuel
  induction fuel with
  | zero => intro s; cases s <;> simp [countOccAux]
  | succ f ih =>
    intro s
    cases s with
    | nil => simp [countOccAux]
    | cons c rest =>
      simp only [countOccAux]
      by_cases hc : (!sep.isEmpty && sep.isPrefixOf (c :: rest)) = true
      · rw [if_pos hc]
        have hsep : 0 < sep.length := by
          rcases Bool.and_eq_true_iff.mp hc with ⟨hne, _⟩
          cases sep with
          | nil => simp [List.isEmpty] at hne
          | cons _ _ => simp
        have := ih ((c :: rest).drop sep.length)
        simp only [List.length_drop, List.length_cons] at *
        omega
      · rw [if_neg hc]
        have := ih rest
        simp only [List.length_cons]
        omega

/-- `countOcc` is bounded by the string length. -/
theorem countOcc_le_length (sep s : Str) : countOcc sep s ≤ s.length :=
  countOccAux_le_length sep s.length s

/-- On a non-empty string that does not end with the separator, the number
of parts produced by `splitInclusive` is the occurrence count plus one. -/
theorem splitInclusive_length_eq (sep s : Str) (hs : s ≠ []) (hsuf : ¬ sep <:+ s) :
    (splitInclusive sep s).length = countOcc sep s + 1 := by
  suffices h : ∀ fuel s, s.length ≤ fuel → s ≠ [] → ¬ sep <:+ s →
      (splitInclusiveAux sep fuel s).length = countOccAux sep fuel s + 1 from
    h s.length s (Nat.le_refl _) hs hsuf
  intro fuel
  induction fuel with
  | zero =>
    intro s hlen hs _
    exact absurd (List.length_eq_zero.mp (Nat.le_zero.mp hlen)) hs
  | succ f ih =>
    intro s hlen hs hsuf
    match s with
    | [] => exact absurd rfl hs
    | c :: rest =>
      simp only [splitInclusiveAux, countOccAux]
      by_cases hc : (!sep.isEmpty && sep.isPrefixOf (c :: rest)) = true
      · rw [if_pos hc, if_pos hc]
        rcases Bool.and_eq_true_iff.mp hc with ⟨hne, hp⟩
        obtain ⟨t, ht⟩ := List.isPrefixOf_iff_prefix.mp hp
        have hsep : 0 < sep.length := by
          cases sep with
          | nil => simp [List.isEmpty] at hne
          | cons _ _ => simp
        have hdrop : (c :: rest).drop sep.length = t := by
          rw [← ht, List.drop_left]
        have htne : t ≠ [] := by
          rintro rfl
          rw [List.append_nil] at ht
          exact hsuf (ht ▸ List.suffix_refl sep)
        have htsuf : ¬ sep <:+ t := by
          intro hsu
          exact hsuf (ht ▸ hsu.trans (List.suffix_append sep t))
        have hlent : t.length ≤ f := by
          rw [← hdrop]
          simp only [List.length_drop, List.length_cons] at *
          omega
        rw [hdrop, List.length_cons, ih t hlent htne htsuf]
      · rw [if_neg hc, if_neg hc]
        by_cases hrest : rest = []
        · subst hrest
          simp [consHead, countOccAux]
          cases f <;> rfl
        · have hrsuf : ¬ sep <:+ rest := fun hsu => hsuf (sufCons hsu)
          have hlenr : rest.length ≤ f := by
            simp only [List.length_cons] at hlen
            omega
          have hrec := ih rest hlenr hrest hrsuf
          cases haux : splitInclusiveAux sep f rest with
          | nil => rw [haux] at hrec; simp at hrec
          | cons p ps =>
            rw [haux] at hrec
            simp only [consHead, List.length_cons] at *
            omega

/-- Every part of a `splitInclusive` result except the last ends with the
separator. -/
theorem splitInclusive_dropLast_suffix (sep s : Str) :
    ∀ p ∈ (splitInclusive sep s).dropLast, sep <:+ p := by
  suffices h : ∀ fuel s, s.length ≤ fuel →
      ∀ p ∈ (splitInclusiveAux sep fuel s).dropLast, sep <:+ p from
    h s.length s (Nat.le_refl _)
  intro fuel
  induction fuel with
  | zero =>
    intro s hlen p hp
    have : s = [] := List.length_eq_zero.mp (Nat.le_zero.mp hlen)
    subst this
    simp [splitInclusiveAux] at hp
  | succ f ih =>
    intro s hlen p hp
    match s with
    | [] => simp [splitInclusiveAux] at hp
    | c :: rest =>
      simp only [splitInclusiveAux] at hp
      by_cases hc : (!sep.isEmpty && sep.isPrefixOf (c :: rest)) = true
      · rw [if_pos hc] at hp
        have hsep : 0 < sep.length := by
          rcases Bool.and_eq_true_iff.mp hc with ⟨hne, _⟩
          cases sep with
          | nil => simp [List.isEmpty] at hne
          | cons _ _ => simp
        have hlen2 : ((c :: rest).drop sep.length).length ≤ f := by
          simp only [List.length_drop, List.length_cons] at *
          omega
        cases haux : splitInclusiveAux sep f ((c :: rest).drop sep.length) with
        | nil => rw [haux] at hp; simp at hp
        | cons q qs =>
          rw [haux, List.dropLast_cons_of_ne_nil (by simp)] at hp
          rcases List.mem_cons.mp hp with rfl | hp2
          · exact List.suffix_refl _
          · exact ih _ hlen2 p (haux ▸ hp2)
      · rw [if_neg hc] at hp
        have hlenr : rest.length ≤ f := by
          simp only [List.length_cons] at hlen
          omega
        cases haux : splitInclusiveAux sep f rest with
        | nil => rw [haux] at hp; simp [consHead] at hp
        | cons q qs =>
          rw [haux] at hp
          simp only [consHead] at hp
          cases qs with
          | nil => simp at hp
          | cons r rs =>
            rw [List.dropLast_cons_of_ne_nil (by simp)] at hp
            rcases List.mem_cons.mp hp with rfl | hp2
            · have hq : sep <:+ q := by
                refine ih _ hlenr q ?_
                rw [haux, List.dropLast_cons_of_ne_nil (by simp)]
                exact List.mem_cons_self q _
              exact sufCons hq
            · refine ih _ hlenr p ?_
              rw [haux, List.dropLast_cons_of_ne_nil (by simp)]
              exact List.mem_cons_of_mem q hp2

/-! ### Lemmas about the matcher and the filter loop -/

/-- The early-return chain of `Config::matches` is the conjunction of the
include test and the negated exclude test. -/
theorem iteOkEq (X Y : Bool) :
    (if (!X) = true then (Except.ok false : Except Err Bool)
     else if Y = true then .ok false else .ok true) = .ok (X && !Y) := by
  cases X <;> cases Y <;> rfl

/-- When at least one pattern is configured, `Config::matches` succeeds
and returns the verdict described by the specification. -/
theorem matches_ok (c : Config) (f : Str)
    (hp : (c.exclude.isNone && c.include_.isNone) = false) :
    c.matches f = .ok (matchesSpec c f) := by
  unfold Config.matches matchesSpec
  rw [if_neg (by simp [hp])]
  rcases c with ⟨rx, inc, exc, mc, ir, er⟩
  cases ir with
  | some r =>
    cases er with
    | some r2 => exact iteOkEq _ _
    | none =>
      cases exc with
      | some pat2 => exact iteOkEq _ _
      | none => exact iteOkEq _ _
  | none =>
    cases inc with
    | some pat =>
      cases er with
      | some r2 => exact iteOkEq _ _
      | none =>
        cases exc with
        | some pat2 => exact iteOkEq _ _
        | none => exact iteOkEq _ _
    | none =>
      cases er with
      | some r2 => exact iteOkEq _ _
      | none =>
        cases exc with
        | some pat2 => exact iteOkEq _ _
        | none => simp at hp

/-- The only error `Config::matches` can produce is the missing-patterns
configuration error. -/
theorem matches_error_eq (c : Config) (f : Str) (e : Err)
    (h : c.matches f = .error e) : e = .noPatterns := by
  by_cases hc : (c.exclude.isNone && c.include_.isNone) = true
  · unfold Config.matches at h
    rw [if_pos hc] at h
    cases h
    rfl
  · rw [matches_ok c f (by simp only [Bool.not_eq_true] at hc; exact hc)] at h
    cases h

/-- The only error the fragment loop can produce is the missing-patterns
configuration error, propagated from `Config::matches`. -/
theorem filterFragments_error_eq (cfg : Config) (fs : List Str) (e : Err)
    (h : filterFragments cfg fs = .error e) : e = .noPatterns := by
  induction fs with
  | nil => simp [filterFragments] at h
  | cons f fs ih =>
    simp only [filterFragments] at h
    cases hm : cfg.matches f with
    | error e2 =>
      rw [hm] at h
      cases h
      exact matches_error_eq cfg f e hm
    | ok m =>
      rw [hm] at h
      cases hr : filterFragments cfg fs with
      | error e2 =>
        rw [hr] at h
        cases h
        exact ih hr
      | ok rest => rw [hr] at h; cases h

/-- If every fragment matches, the filter loop reproduces the fragments
unchanged and in order. -/
theorem filterFragments_all_true (cfg : Config) (fs : List Str)
    (h : ∀ f, cfg.matches f = .ok true) :
    filterFragments cfg fs = .ok fs.flatten := by
  induction fs with
  | nil => rfl
  | cons f fs ih =>
    simp only [filterFragments, h f, ih]
    rfl

/-- If every match attempt fails, the filter loop fails on any non-empty
fragment list. -/
theorem filterFragments_all_error (cfg : Config) (fs : List Str)
    (h : ∀ f, cfg.matches f = .error .noPatterns) (hne : fs ≠ []) :
    filterFragments cfg fs = .error .noPatterns := by
  cases fs with
  | nil => exact absurd rfl hne
  | cons f fs => simp only [filterFragments, h f]

/-- A successful filter loop returns exactly the concatenation, in order,
of the fragments that survive (`Config::matches` returns `Ok(true)`). -/
theorem filterFragments_ok_eq (cfg : Config) (fs : List Str) (body : Str)
    (h : filterFragments cfg fs = .ok body) :
    body = (fs.filter (survives cfg)).flatten := by
  induction fs generalizing body with
  | nil =>
    simp only [filterFragments] at h
    cases h
    rfl
  | cons f fs ih =>
    simp only [filterFragments] at h
    cases hm : cfg.matches f with
    | error e2 => rw [hm] at h; cases h
    | ok m =>
      rw [hm] at h
      cases hr : filterFragments cfg fs with
      | error e2 => rw [hr] at h; cases h
      | ok rest =>
        rw [hr] at h
        cases h
        have hsurv : survives cfg f = m := by
          unfold survives
          rw [hm]
        rw [List.filter_cons, hsurv]
        cases m with
        | true => simp [ih rest hr]
        | false => simp [ih rest hr]

/-- Inversion for `Except.map` returning a success. -/
theorem exceptMapOk {ε α β : Type} (f : α → β) (e : Except ε α) (out : β)
    (h : e.map f = .ok out) : ∃ b, e = .ok b ∧ out = f b := by
  cases e with
  | error e2 => simp [Except.map] at h
  | ok b =>
    refine ⟨b, rfl, ?_⟩
    simp only [Except.map] at h
    cases h
    rfl

/-- `Except.map` preserves errors. -/
theorem exceptMapError {ε α β : Type} (f : α → β) (e2 : ε) :
    (Except.error e2 : Except ε α).map f = .error e2 := rfl

/-- Unfolding of `filter_chat_log` when the container split produced
exactly two parts. -/
theorem filter_chat_log_of_split (doc : Str) (cfg : Config) (pre rest : Str)
    (h : splitInclusive chatMarker doc = [pre, rest]) :
    filter_chat_log doc cfg =
      (filterFragments cfg (splitInclusive msgMarker (replaceStr rest trailer []))).map
        (fun body => pre ++ body ++ trailer) := by
  unfold filter_chat_log
  rw [h]

/-- Unfolding of `filter_chat_log` when the container split did not
produce exactly two parts. -/
theorem filter_chat_log_of_len_ne (doc : Str) (cfg : Config)
    (h : (splitInclusive chatMarker doc).length ≠ 2) :
    filter_chat_log doc cfg =
      .error (.structural (usizeSub1 (splitInclusive chatMarker doc).length)) := by
  unfold filter_chat_log
  cases hs : splitInclusive chatMarker doc with
  | nil => rfl
  | cons p l =>
    cases l with
    | nil => rfl
    | cons q l2 =>
      cases l2 with
      | nil => rw [hs] at h; simp at h
      | cons r l3 => rfl

/-! ### Auxiliary lemmas for the claim theorems -/

/-- Mapping a function over both lists preserves the infix relation. -/
theorem infixMap (g : Char → Char) {l₁ l₂ : Str} (h : l₁ <:+: l₂) :
    l₁.map g <:+: l₂.map g := by
  obtain ⟨s, t, rfl⟩ := h
  exact ⟨s.map g, t.map g, by simp⟩

/-- Refuting an infix relation by evaluating `containsSubstr`. -/
theorem notInfixOfContains {l p : Str} (h : containsSubstr l p = false) :
    ¬ p <:+: l := by
  intro hinf
  rw [(containsSubstr_iff l p).mpr hinf] at h
  cases h

/-- The empty pattern is contained in every string. -/
theorem containsSubstr_nil (h : Str) : containsSubstr h [] = true := by
  cases h with
  | nil => rfl
  | cons c rest => simp [containsSubstr, List.isPrefixOf]

/-- Evaluating `Char.ofNat` at a valid code point. -/
theorem char_toNat_ofNat {n : Nat} (h : n.isValidChar) :
    (Char.ofNat n).toNat = n := by
  rw [Char.ofNat, dif_pos h]
  rfl

/-- `Char.toLower` never produces the uppercase letter `F`: uppercase
ASCII letters are shifted into lowercase ones and all other characters
are fixed (and `F` is itself uppercase ASCII). -/
theorem toLower_ne_F (c : Char) : Char.toLower c ≠ 'F' := by
  intro h
  have hF : ('F' : Char).toNat = 70 := rfl
  unfold Char.toLower at h
  by_cases hc : c.toNat ≥ 65 ∧ c.toNat ≤ 90
  · rw [if_pos hc] at h
    have hv : (c.toNat + 32).isValidChar := Or.inl (by omega)
    have h2 := congrArg Char.toNat h
    rw [char_toNat_ofNat hv, hF] at h2
    omega
  · rw [if_neg hc] at h
    have h2 := congrArg Char.toNat h
    rw [hF] at h2
    exact hc (by omega)

/-- A lowercased string never contains the pattern `"Foo"`: the letter
`F` cannot occur in the image of `Char.toLower`. -/
theorem not_contains_Foo (f : Str) :
    containsSubstr (toLowercase f) "Foo".data = false := by
  rw [Bool.eq_false_iff]
  intro h
  have hinf := (containsSubstr_iff _ _).mp h
  have hmem : 'F' ∈ toLowercase f := hinf.subset (by decide)
  unfold toLowercase at hmem
  obtain ⟨c, _, hc⟩ := List.mem_map.mp hmem
  exact toLower_ne_F c hc

/-- Wrapping `usize` subtraction of one, below the wrap-around. -/
theorem usizeSub1_succ (n : Nat) (h : n < usizeSize) : usizeSub1 (n + 1) = n := by
  unfold usizeSub1
  have h0 : 1 ≤ usizeSize := by norm_num [usizeSize]
  have h1 : n + 1 + (usizeSize - 1) = n + usizeSize := by omega
  rw [h1, Nat.add_mod_right, Nat.mod_eq_of_lt h]

/-- Wrapping `usize` subtraction of one underflows at zero. -/
theorem usizeSub1_zero : usizeSub1 0 = usizeSize - 1 := by
  unfold usizeSub1
  refine Nat.mod_eq_of_lt ?_
  norm_num [usizeSize]

/-- The spec verdict of a case-insensitive literal include-only config. -/
theorem matchesSpec_literal_ci (inc : Str) (f : Str) :
    matchesSpec ⟨false, some inc, none, false, none, none⟩ f =
      containsSubstr (toLowercase f) inc := by
  unfold matchesSpec
  simp

/-- The spec verdict of a case-sensitive literal include-only config. -/
theorem matchesSpec_literal_cs (inc : Str) (f : Str) :
    matchesSpec ⟨false, some inc, none, true, none, none⟩ f =
      containsSubstr f inc := by
  unfold matchesSpec
  simp

/-- The identity config matches every fragment. -/
theorem cfgIdm_matches (mc : Bool) (f : Str) :
    (cfgIdm mc).matches f = .ok true := by
  rw [matches_ok (cfgIdm mc) f rfl]
  unfold matchesSpec cfgIdm
  simp [containsSubstr_nil]

/-! ### Claim theorems -/

/-- Claim C1: for every `Config` with at least one of include/exclude
set, `Config::matches` returns `Ok(true)` iff the case-normalized
fragment satisfies the include pattern when one is present AND does not
satisfy the exclude pattern when one is present; in particular for
include = "A" and exclude = "A" (literal mode, case-sensitive), every
fragment containing "A" yields `Ok(false)` — exclude overrides a passing
include. -/
theorem C1_include_and_exclude :
    (∀ (c : Config) (f : Str), c.include_.isSome ∨ c.exclude.isSome →
      c.matches f = .ok (matchesSpec c f)) ∧
    Config.from_args noRegex false (some ['A']) (some ['A']) true = .ok cfgAA ∧
    (∀ f : Str, ['A'] <:+: f → cfgAA.matches f = .ok false) := by
  refine ⟨?_, rfl, ?_⟩
  · intro c f h
    refine matches_ok c f ?_
    rcases h with h | h
    · cases hi : c.include_ with
      | none => rw [hi] at h; cases h
      | some p => simp [hi]
    · cases he : c.exclude with
      | none => rw [he] at h; cases h
      | some p => simp [he]
  · intro f hinf
    rw [matches_ok cfgAA f rfl]
    unfold matchesSpec cfgAA
    simp

/-- Claim C1 witness: the general part at a concrete config and the
exclude-precedence part at a concrete fragment containing "A". -/
theorem C1_include_and_exclude_witness :
    cfgAA.matches "xAy".data = .ok (matchesSpec cfgAA "xAy".data) ∧
    cfgAA.matches "xAy".data = .ok false :=
  ⟨C1_include_and_exclude.1 cfgAA "xAy".data (Or.inl (by decide)),
   C1_include_and_exclude.2.2 "xAy".data (by decide)⟩

/-- Claim C2 counterexample: the document consisting of exactly the
chat-container marker contains the marker exactly once, yet
`filter_chat_log` fails with a structural error citing 0 occurrences
(the split-inclusive parts count is 1, not 2, when the marker ends the
document). -/
theorem C2_counterexample :
    countOcc chatMarker chatMarker = 1 ∧
    filter_chat_log chatMarker cfgId = .error (.structural 0) := by
  constructor
  · decide
  · decide

/-- Claim C2 amended: for every non-empty document that does not end with
the chat-container marker and whose length is below `2 ^ 64`,
`filter_chat_log` fails with a structural error iff the marker occurrence
count differs from 1, and the error cites exactly that count. -/
theorem C2_structural_amended (doc : Str) (cfg : Config)
    (hne : doc ≠ []) (hsuf : ¬ chatMarker <:+ doc)
    (hlen : doc.length < usizeSize) :
    (countOcc chatMarker doc ≠ 1 →
      filter_chat_log doc cfg = .error (.structural (countOcc chatMarker doc))) ∧
    (countOcc chatMarker doc = 1 →
      ∀ n, filter_chat_log doc cfg ≠ .error (.structural n)) := by
  have hparts := splitInclusive_length_eq chatMarker doc hne hsuf
  constructor
  · intro hcnt
    rw [filter_chat_log_of_len_ne doc cfg (by omega)]
    rw [hparts, usizeSub1_succ _ (lt_of_le_of_lt (countOcc_le_length _ _) hlen)]
  · intro hcnt n hEq
    have hlen2 : (splitInclusive chatMarker doc).length = 2 := by omega
    obtain ⟨pre, rest, hs⟩ := List.length_eq_two.mp hlen2
    rw [filter_chat_log_of_split doc cfg pre rest hs] at hEq
    cases hfr : filterFragments cfg
        (splitInclusive msgMarker (replaceStr rest trailer [])) with
    | ok body => rw [hfr] at hEq; cases hEq
    | error e =>
      rw [hfr, exceptMapError] at hEq
      cases hEq
      have := filterFragments_error_eq _ _ _ hfr
      cases this

/-- Claim C2 amended witness: a document with zero markers gets a
structural error citing 0. -/
theorem C2_structural_amended_witness :
    filter_chat_log ['a'] cfgId = .error (.structural (countOcc chatMarker ['a'])) :=
  (C2_structural_amended ['a'] cfgId (by decide) (by decide) (by decide)).1
    (by decide)

set_option maxRecDepth 16384 in
/-- Claim C3 counterexample: on the three-message document with one OOC
message, the anchored OOC include regex keeps no fragment at all —
`split_inclusive` attaches each message-opening marker to the end of the
preceding fragment, so no fragment starts with the anchored literal; the
output is preamble + trailer, not preamble + the OOC fragment + trailer. -/
theorem C3_counterexample :
    filter_chat_log docOOC cfgOOC = .ok (preHtml ++ chatMarker ++ trailer) ∧
    filter_chat_log docOOC cfgOOC ≠
      .ok (preHtml ++ chatMarker ++ fragOOC ++ trailer) := by
  constructor
  · decide
  · decide

set_option maxRecDepth 16384 in
/-- Claim C3 amended: the fragment split is inclusive with the marker as
terminator: the fragments concatenate back to the split text, every
fragment except the last ends (rather than begins) with the message
marker, and text before the first marker begins the first fragment;
consequently the anchored OOC include regex
`^<div class=\"ChatMessage\" data-type=\"ooc\">` (compiled by
`Config::from_args` in regex mode) matches no fragment of the
three-message document, which filters to preamble + trailer only. -/
theorem C3_split_inclusive_amended :
    (∀ s : Str, (splitInclusive msgMarker s).flatten = s) ∧
    (∀ s : Str, ∀ p ∈ (splitInclusive msgMarker s).dropLast, msgMarker <:+ p) ∧
    Config.from_args oocCompile true (some oocPattern) none true = .ok cfgOOC ∧
    filter_chat_log docOOC cfgOOC = .ok (preHtml ++ chatMarker ++ trailer) := by
  refine ⟨fun s => splitInclusive_flatten msgMarker s,
    fun s => splitInclusive_dropLast_suffix msgMarker s, rfl, by decide⟩

/-- Claim C3 amended witness: the non-final fragment of a concrete split
ends with the message marker. -/
theorem C3_split_inclusive_amended_witness :
    msgMarker <:+ ("xy".data ++ msgMarker) :=
  C3_split_inclusive_amended.2.1
    (msgMarker ++ ("xy".data ++ msgMarker) ++ "z".data)
    ("xy".data ++ msgMarker) (by decide)

/-- Claim C4: whenever `filter_chat_log` succeeds on a document whose
first chat-container marker occurrence ends at position
`(a ++ chatMarker).length`, the output starts byte-for-byte with the
preamble `a ++ chatMarker` and ends byte-for-byte with the fixed trailer,
which is appended unconditionally. -/
theorem C4_preamble_trailer (a b : Str) (cfg : Config) (out : Str)
    (hfirst : ¬ chatMarker <:+: (a ++ chatMarker).dropLast)
    (hok : filter_chat_log (a ++ chatMarker ++ b) cfg = .ok out) :
    (a ++ chatMarker) <+: out ∧ trailer <:+ out := by
  have hsplit := splitInclusive_first chatMarker a b (by decide) hfirst
  cases hb : splitInclusive chatMarker b with
  | nil =>
    rw [hb] at hsplit
    rw [filter_chat_log_of_len_ne _ cfg (by rw [hsplit]; simp)] at hok
    cases hok
  | cons r l =>
    cases l with
    | nil =>
      rw [hb] at hsplit
      rw [filter_chat_log_of_split _ cfg _ _ hsplit] at hok
      obtain ⟨body, _, rfl⟩ := exceptMapOk _ _ _ hok
      constructor
      · exact ⟨body ++ trailer, by simp⟩
      · exact ⟨(a ++ chatMarker) ++ body, by simp⟩
    | cons r2 l2 =>
      rw [hb] at hsplit
      rw [filter_chat_log_of_len_ne _ cfg (by rw [hsplit]; simp)] at hok
      cases hok

/-- Claim C4 witness: preamble and trailer of a concrete filtered
document. -/
theorem C4_preamble_trailer_witness :
    ("<html>".data ++ chatMarker) <+:
      ("<html>".data ++ chatMarker ++ "z".data ++ trailer) ∧
    trailer <:+ ("<html>".data ++ chatMarker ++ "z".data ++ trailer) :=
  C4_preamble_trailer "<html>".data "z".data cfgId
    ("<html>".data ++ chatMarker ++ "z".data ++ trailer)
    (notInfixOfContains (by decide)) (by decide)

/-- Claim C5 counterexample: a surviving fragment whose interior contains
the trailer string has those interior bytes removed — `str::replace`
deletes every occurrence of the trailer from the fragment region, not
just the closing one — so the fragment is not reproduced byte-for-byte. -/
theorem C5_counterexample :
    filter_chat_log doc5 cfgId =
      .ok ("<html>".data ++ chatMarker ++ msgMarker ++ "xy".data ++ trailer) ∧
    filter_chat_log doc5 cfgId ≠
      .ok ("<html>".data ++ chatMarker ++ msgMarker ++ "x".data ++ trailer ++
        "y".data ++ trailer) := by
  constructor
  · decide
  · decide

/-- Claim C5 amended: a successful `filter_chat_log` output is exactly the
preamble, followed by the in-order concatenation of the surviving
fragments of the trailer-stripped region — where every occurrence of the
trailer string has been removed from the whole region before splitting,
not only from the last fragment — followed by the trailer. -/
theorem C5_byte_exact_amended (doc : Str) (cfg : Config) (pre rest out : Str)
    (hs : splitInclusive chatMarker doc = [pre, rest])
    (hok : filter_chat_log doc cfg = .ok out) :
    out = pre ++
      ((splitInclusive msgMarker (replaceStr rest trailer [])).filter
        (survives cfg)).flatten ++ trailer := by
  rw [filter_chat_log_of_split doc cfg pre rest hs] at hok
  obtain ⟨body, hbody, rfl⟩ := exceptMapOk _ _ _ hok
  rw [filterFragments_ok_eq cfg _ body hbody]

/-- Claim C5 amended witness: the decomposition at the concrete document
whose interior contains the trailer string. -/
theorem C5_byte_exact_amended_witness :
    "<html>".data ++ chatMarker ++ msgMarker ++ "xy".data ++ trailer =
      ("<html>".data ++ chatMarker) ++
        ((splitInclusive msgMarker
          (replaceStr (msgMarker ++ "x".data ++ trailer ++ "y".data ++ trailer)
            trailer [])).filter (survives cfgId)).flatten ++ trailer :=
  C5_byte_exact_amended doc5 cfgId
    ("<html>".data ++ chatMarker)
    (msgMarker ++ "x".data ++ trailer ++ "y".data ++ trailer)
    ("<html>".data ++ chatMarker ++ msgMarker ++ "xy".data ++ trailer)
    (by decide) (by decide)

/-- Claim C6: a `Config` with neither include nor exclude set fails every
`matches` call with the configuration error, and `filter_chat_log` on a
structurally valid document with at least one fragment propagates exactly
that error. -/
theorem C6_no_patterns (cfg : Config)
    (hinc : cfg.include_ = none) (hexc : cfg.exclude = none) :
    (∀ f : Str, cfg.matches f = .error .noPatterns) ∧
    (∀ a b : Str, ¬ chatMarker <:+: (a ++ chatMarker).dropLast →
      ¬ chatMarker <:+: b → b ≠ [] → replaceStr b trailer [] ≠ [] →
      filter_chat_log (a ++ chatMarker ++ b) cfg = .error .noPatterns) := by
  have hm : ∀ f : Str, cfg.matches f = .error .noPatterns := by
    intro f
    unfold Config.matches
    rw [if_pos (by rw [hinc, hexc]; rfl)]
  refine ⟨hm, ?_⟩
  intro a b hfirst hbinf hbne hrne
  have hsplit := splitInclusive_first chatMarker a b (by decide) hfirst
  rw [splitInclusive_no_occurrence chatMarker b hbne hbinf] at hsplit
  rw [filter_chat_log_of_split _ cfg _ _ hsplit]
  rw [filterFragments_all_error cfg _ hm ?hne]
  · rfl
  case hne =>
    intro hnil
    exact hrne ((splitInclusive_eq_nil_iff _ _).mp hnil)

/-- Claim C6 witness: the pattern-less config fails a concrete match and
a concrete filtering run with the configuration error. -/
theorem C6_no_patterns_witness :
    cfgEmpty.matches "q".data = .error .noPatterns ∧
    filter_chat_log ("x".data ++ chatMarker ++ "y".data) cfgEmpty =
      .error .noPatterns :=
  ⟨(C6_no_patterns cfgEmpty rfl rfl).1 "q".data,
   (C6_no_patterns cfgEmpty rfl rfl).2 "x".data "y".data
     (notInfixOfContains (by decide)) (notInfixOfContains (by decide))
     (by decide) (by decide)⟩

/-- Claim C7 counterexample: the document consisting of exactly one
chat-container marker (at the very end) is not reproduced by the identity
filter — `filter_chat_log` fails with a structural error instead, because
the inclusive split yields one part, not two. -/
theorem C7_counterexample :
    countOcc chatMarker chatMarker = 1 ∧
    filter_chat_log chatMarker cfgId ≠
      .ok (chatMarker ++ replaceStr [] trailer [] ++ trailer) := by
  constructor
  · decide
  · decide

/-- Claim C7 amended: for every document with exactly one chat-container
marker followed by at least one character, the identity config (built by
`Config::from_args` with literal include `""` and no exclude) reproduces
the input unchanged except for trailer normalization: every occurrence of
the trailer string is removed from the fragment region and a single
trailer is appended. -/
theorem C7_identity_amended (a b : Str) (mc : Bool)
    (hfirst : ¬ chatMarker <:+: (a ++ chatMarker).dropLast)
    (hbinf : ¬ chatMarker <:+: b) (hbne : b ≠ []) :
    Config.from_args noRegex false (some []) none mc = .ok (cfgIdm mc) ∧
    filter_chat_log (a ++ chatMarker ++ b) (cfgIdm mc) =
      .ok (a ++ chatMarker ++ (replaceStr b trailer [] ++ trailer)) := by
  refine ⟨by cases mc <;> rfl, ?_⟩
  have hsplit := splitInclusive_first chatMarker a b (by decide) hfirst
  rw [splitInclusive_no_occurrence chatMarker b hbne hbinf] at hsplit
  rw [filter_chat_log_of_split _ _ _ _ hsplit]
  rw [filterFragments_all_true _ _ (cfgIdm_matches mc)]
  rw [splitInclusive_flatten]
  simp [Except.map]

/-- Claim C7 amended witness: identity filtering of a concrete document
with an interior trailer occurrence. -/
theorem C7_identity_amended_witness :
    filter_chat_log ("<html>".data ++ chatMarker ++ ("w".data ++ trailer))
      (cfgIdm false) =
      .ok ("<html>".data ++ chatMarker ++
        (replaceStr ("w".data ++ trailer) trailer [] ++ trailer)) :=
  (C7_identity_amended "<html>".data ("w".data ++ trailer) false
    (notInfixOfContains (by decide)) (notInfixOfContains (by decide))
    (by decide)).2

/-- Claim C8: `Config::from_args` with `match_case = false` lowercases
both pattern strings at construction; include "Foo" then matches a
fragment containing "foo", while with `match_case = true` include "Foo"
does not match a fragment not containing "Foo" itself. -/
theorem C8_case_normalization :
    Config.from_args noRegex false (some "Foo".data) (some "BAR".data) false =
      .ok ⟨false, some "foo".data, some "bar".data, false, none, none⟩ ∧
    Config.from_args noRegex false (some "Foo".data) none false = .ok cfgFoo ∧
    (∀ f : Str, "foo".data <:+: f → cfgFoo.matches f = .ok true) ∧
    Config.from_args noRegex false (some "Foo".data) none true = .ok cfgFooCS ∧
    (∀ f : Str, ¬ "Foo".data <:+: f → cfgFooCS.matches f = .ok false) := by
  refine ⟨rfl, rfl, ?_, rfl, ?_⟩
  · intro f hinf
    rw [matches_ok cfgFoo f rfl]
    have h1 : containsSubstr (toLowercase f) "foo".data = true := by
      refine (containsSubstr_iff _ _).mpr ?_
      have h2 := infixMap Char.toLower hinf
      have h3 : List.map Char.toLower "foo".data = "foo".data := by decide
      rw [h3] at h2
      exact h2
    show Except.ok (matchesSpec ⟨false, some "foo".data, none, false, none, none⟩ f) =
      Except.ok true
    rw [matchesSpec_literal_ci, h1]
  · intro f hninf
    rw [matches_ok cfgFooCS f rfl]
    have h1 : containsSubstr f "Foo".data = false := by
      rw [Bool.eq_false_iff]
      intro h
      exact hninf ((containsSubstr_iff _ _).mp h)
    show Except.ok (matchesSpec ⟨false, some "Foo".data, none, true, none, none⟩ f) =
      Except.ok false
    rw [matchesSpec_literal_cs, h1]

/-- Claim C8 witness: both case-sensitivity behaviours at the concrete
fragment "xfooy". -/
theorem C8_case_normalization_witness :
    cfgFoo.matches "xfooy".data = .ok true ∧
    cfgFooCS.matches "xfooy".data = .ok false :=
  ⟨C8_case_normalization.2.2.1 "xfooy".data (by decide),
   C8_case_normalization.2.2.2.2 "xfooy".data (notInfixOfContains (by decide))⟩

/-- Claim C9: `Config::load` stores the deserialized pattern strings
without case normalization, so a file-loaded literal include "Foo" with
`match_case = false` is satisfied by no fragment at all: the fragment is
lowercased at match time but the stored pattern keeps its uppercase
letter. -/
theorem C9_load_no_normalization :
    Config.load noRegex false (some "Foo".data) none false = .ok cfgFileFoo ∧
    cfgFileFoo.include_ = some "Foo".data ∧
    (∀ f : Str, cfgFileFoo.matches f = .ok false) := by
  refine ⟨rfl, rfl, ?_⟩
  intro f
  rw [matches_ok cfgFileFoo f rfl]
  show Except.ok (matchesSpec ⟨false, some "Foo".data, none, false, none, none⟩ f) =
    Except.ok false
  rw [matchesSpec_literal_ci, not_contains_Foo f]

/-- Claim C10: on the empty input document the marker split yields zero
parts, and the error branch computes `parts.len() - 1 = 0 - 1` in
`usize`: the reported count underflows (wrapping to `2 ^ 64 - 1`; a panic
with overflow checks enabled) instead of citing the occurrence count 0. -/
theorem C10_empty_underflow :
    splitInclusive chatMarker [] = [] ∧
    (∀ cfg : Config, filter_chat_log [] cfg =
      .error (.structural (usizeSize - 1))) ∧
    usizeSize - 1 ≠ 0 := by
  refine ⟨rfl, fun cfg => ?_, by norm_num [usizeSize]⟩
  rw [filter_chat_log_of_len_ne [] cfg (by rw [splitInclusive_nil]; simp)]
  rw [splitInclusive_nil]
  show Except.error (Err.structural (usizeSub1 0)) = _
  rw [usizeSub1_zero]

end ChatFilter
